import Mathlib

/-!
Verification of the sample utilities of the fastapi-vercel repository
(directory `app/utils/sample`): shallow embeddings of the retry
decorator, the in-memory item store of the FastAPI demo app, the regex
sanitizer, the descending-sort demo, the defensive file reader, the
websocket echo loop, the `Vec2` operator overloads and the builtin
stats endpoint, together with proofs of their specified properties.
-/

namespace FastapiVercel

/-! ### Vec2 (oop.py): operator overloading demo

Float components are modelled as exact rationals; the properties proved
here (component-wise structure and commutativity of addition) also hold
for IEEE-754 values, so no rounding behaviour is relied upon. -/

/-- The 2D vector class `Vec2` of `oop.py`. -/
structure Vec2 where
  x : Rat
  y : Rat
deriving DecidableEq, Repr

/-- Embeds `Vec2.__add__`: `Vec2(self.x + other.x, self.y + other.y)`. -/
def Vec2.add (a other : Vec2) : Vec2 :=
  Vec2.mk (a.x + other.x) (a.y + other.y)

/-- Embeds `Vec2.__mul__`: `Vec2(self.x * scalar, self.y * scalar)`. -/
def Vec2.mul (a : Vec2) (scalar : Rat) : Vec2 :=
  Vec2.mk (a.x * scalar) (a.y * scalar)

/-! ### Websocket echo loop (fastapi.py, `ws_echo`)

The handler accepts the connection, then loops: receive a text message,
send back `"echo: " ++ data`.  A session is modelled by the finite list
of text messages received before the connection drops; the receive that
finds the connection closed raises, and the `except` clause closes the
socket.  The trace of observable websocket actions is recorded. -/

/-- Observable actions of the `ws_echo` handler. -/
inductive WsEvent where
  | accepted : WsEvent
  | sent : String → WsEvent
  | closed : WsEvent
deriving DecidableEq, Repr

/-- The receive/send loop of `ws_echo`: one send per received message,
in order; when receive raises (connection dropped) the handler closes. -/
def wsLoop : List String → List WsEvent
  | [] => [WsEvent.closed]
  | data :: rest => WsEvent.sent ("echo: " ++ data) :: wsLoop rest

/-- Embeds the `ws_echo` handler: accept, then the echo loop. -/
def ws_echo (msgs : List String) : List WsEvent :=
  WsEvent.accepted :: wsLoop msgs

/-- Projects the sent message out of a trace event, if any. -/
def sentOf : WsEvent → Option String
  | WsEvent.sent m => some m
  | _ => none

/-! ### Regex sanitizer (regex.py, `split_and_sub_examples`)

`re.sub(r"[^\w.@+-]", "-", s)` replaces every character not in the
class with a single `'-'`.  Since the pattern matches exactly one
character at a time, the substitution is a character-wise map.  The
Unicode-aware word-character class `\w` is kept abstract as a predicate
`isw`; the property holds for any such predicate. -/

/-- Membership in the character class `[\w.@+-]` of the sanitizer,
parameterised by the word-character predicate `isw` for `\w`. -/
def allowedChar (isw : Char → Bool) (c : Char) : Bool :=
  isw c || c = '.' || c = '@' || c = '+' || c = '-'

/-- Character-wise embedding of `re.sub(r"[^\w.@+-]", "-", s)`. -/
def sanitizeChars (isw : Char → Bool) (s : List Char) : List Char :=
  s.map (fun c => if allowedChar isw c then c else '-')

/-- String-level wrapper of the sanitizing substitution. -/
def subSanitize (isw : Char → Bool) (s : String) : String :=
  String.mk (sanitizeChars isw s.data)

/-- The ASCII word characters, used as a concrete instance of `\w`. -/
def asciiWord (c : Char) : Bool :=
  c.isAlphanum || c = '_'

/-! ### Defensive file read (files.py, `safe_open_read`)

`path.read_text` either returns the file content or raises; the handler
catches `FileNotFoundError` and returns `""`, and any other exception
propagates.  The filesystem is modelled as a function from paths to the
outcome of `read_text`. -/

/-- Exceptions a file read can raise: `FileNotFoundError` or any other
exception (carrying a message). -/
inductive PyErr where
  | fileNotFound : PyErr
  | other : String → PyErr
deriving DecidableEq, Repr

/-- Embeds `safe_open_read`: try `path.read_text()`, catch
`FileNotFoundError` and return `""`; other exceptions propagate. -/
def safe_open_read (fs : String → Except PyErr String) (path : String) :
    Except PyErr String :=
  match fs path with
  | Except.ok s => Except.ok s
  | Except.error PyErr.fileNotFound => Except.ok ""
  | Except.error (PyErr.other m) => Except.error (PyErr.other m)

/-- A filesystem whose file at every path exists and is empty. -/
def fsEmptyFile : String → Except PyErr String := fun _ => Except.ok ""

/-! ### In-memory item store (fastapi.py)

`IN_MEMORY_DB` is a Python dict from int ids to `Item` dataclass
values.  A dict is embedded as an insertion-ordered association list
with the usual dict semantics: lookup finds the unique binding,
assignment updates an existing key in place or appends a new binding.
The float `price` is modelled as `Rat`; the verified properties never
compute with it, values only pass through unchanged. -/

/-- The `Item` dataclass of `fastapi.py` (fields `id`, `name`, `price`). -/
structure Item where
  id : Int
  name : String
  price : Rat
deriving DecidableEq, Repr

/-- Result of `dataclasses.asdict` on an `Item`: the plain dictionary of
its three fields. -/
structure ItemDict where
  id : Int
  name : String
  price : Rat
deriving DecidableEq, Repr

/-- Embeds `dataclasses.asdict` for `Item`. -/
def asdict (item : Item) : ItemDict :=
  ItemDict.mk item.id item.name item.price

/-- Dict lookup `db[i]` / membership `i in db`. -/
def dbLookup : List (Int × Item) → Int → Option Item
  | [], _ => none
  | (k, v) :: rest, i => if i = k then some v else dbLookup rest i

/-- Dict assignment `db[k] = v`: update in place if the key exists,
otherwise append the new binding. -/
def dbInsert : List (Int × Item) → Int → Item → List (Int × Item)
  | [], k, v => [(k, v)]
  | (k0, v0) :: rest, k, v =>
    if k = k0 then (k0, v) :: rest else (k0, v0) :: dbInsert rest k v

/-- Initial store: `{1: Item(1, "apple", 0.5)}`. -/
def IN_MEMORY_DB : List (Int × Item) :=
  [(1, Item.mk 1 "apple" (0.5 : Rat))]

/-- Embeds `get_item_or_404`: raise `HTTPException(404)` when the id is
not a key, otherwise return the stored item. -/
def get_item_or_404 (db : List (Int × Item)) (item_id : Int) : Except Nat Item :=
  match dbLookup db item_id with
  | none => Except.error 404
  | some item => Except.ok item

/-- Embeds the `read_item` handler (`GET /item/{item_id}`): the returned
value (or the raised status code) together with the store it leaves
behind. -/
def read_item (db : List (Int × Item)) (item_id : Int) :
    Except Nat ItemDict × List (Int × Item) :=
  match get_item_or_404 db item_id with
  | Except.error code => (Except.error code, db)
  | Except.ok item => (Except.ok (asdict item), db)

/-- Embeds `max(IN_MEMORY_DB.keys(), default=0)`. -/
def maxKey : List (Int × Item) → Int
  | [] => 0
  | p :: rest => (rest.map Prod.fst).foldl max p.1

/-- Embeds the `create_item` handler (`POST /item`): compute
`new_id = max(keys, default=0) + 1`, store `Item(new_id, name, price)`
and return its field dictionary. -/
def create_item (db : List (Int × Item)) (name : String) (price : Rat) :
    ItemDict × List (Int × Item) :=
  let new_id := maxKey db + 1
  let item := Item.mk new_id name price
  (asdict item, dbInsert db new_id item)

/-- A call against the store: either handler of the demo app that
touches `IN_MEMORY_DB`. -/
inductive Op where
  | create : String → Rat → Op
  | read : Int → Op

/-- The store left behind by one call. -/
def applyOp (db : List (Int × Item)) : Op → List (Int × Item)
  | Op.create n p => (create_item db n p).2
  | Op.read i => (read_item db i).2

/-- The store reached from the initial state by a sequence of calls. -/
def runOps (ops : List Op) : List (Int × Item) :=
  ops.foldl applyOp IN_MEMORY_DB

/-- Invariant: every stored item's `id` field equals its key. -/
def keyedById (db : List (Int × Item)) : Prop :=
  ∀ k item, dbLookup db k = some item → item.id = k

/-! ### Retry decorator (decorators.py, `retry`)

`retry(times, delay)(func)` loops `for attempt in range(1, times + 1)`,
returning the first successful call; on an exception it stores it,
sleeps `delay`, and continues; after the loop it executes
`raise last_exc`.  A wrapped call is modelled by the outcomes of the
successive invocations: `f k` is what invocation number `k` would do
(return a value or raise).  When the loop body never runs
(`times <= 0`), `last_exc` is still `None` and `raise None` is a
`TypeError`, modelled by a separate outcome.  The sleep has no effect
on the result and is not modelled. -/

/-- Outcome of one call of the wrapper: a returned value, a re-raised
exception from an attempt, or the `TypeError` of `raise None`. -/
inductive RetryResult (E A : Type) where
  | ok : A → RetryResult E A
  | raised : E → RetryResult E A
  | typeErrorNone : RetryResult E A
deriving DecidableEq, Repr

/-- The retry loop: `rem` iterations remain, the next invocation has
number `attempt`, and `last` is the stored `last_exc`.  Returns the
outcome of the wrapper together with the number of invocations made. -/
def retryLoop {E A : Type} (f : Nat → Except E A) :
    Nat → Nat → Option E → RetryResult E A × Nat
  | 0, _, none => (RetryResult.typeErrorNone, 0)
  | 0, _, some e => (RetryResult.raised e, 0)
  | rem + 1, attempt, _ =>
    match f attempt with
    | Except.ok a => (RetryResult.ok a, 1)
    | Except.error e =>
      let r := retryLoop f rem (attempt + 1) (some e)
      (r.1, r.2 + 1)

/-- Embeds one call of the wrapper produced by
`retry(times, delay)(func)`: run the loop over attempts `1..times`. -/
def retry {E A : Type} (times : Int) (delay : Rat) (f : Nat → Except E A) :
    RetryResult E A × Nat :=
  retryLoop f times.toNat 1 none

/-- A wrapped function every invocation of which raises `7`. -/
def retryCexF : Nat → Except Nat Nat := fun _ => Except.error 7

/-- A wrapped function whose first invocation raises `5` and whose
second invocation returns `9`. -/
def retryWitF : Nat → Except Nat Nat :=
  fun k => if k = 1 then Except.error 5 else Except.ok 9

/-! ### Descending sort demo (builtin_functions.py, `sequence_helpers`)

`sorted(data, reverse=True)` is a stable sort into non-increasing
order; it is embedded as a sort by the total order `≥`. -/

/-- Embeds `sorted(data, reverse=True)` on a list of ints. -/
def sortedDesc (data : List Int) : List Int :=
  data.insertionSort (· ≥ ·)

/-! ### Stats endpoint (fastapi.py, `builtin_stats`)

`GET /builtins/stats` computes
`nums = [int(x) for x in values.split(",") if x.strip()]` and returns
count, sum, `min(nums) if nums else None` and likewise the max.
Splitting, Python truthiness of `x.strip()`, and `int(x)` are embedded
character-wise; a segment on which `int` raises makes the whole
comprehension raise, modelled by `none`. -/

/-- Embeds `values.split(",")` on the character list of the input. -/
def splitComma : List Char → List (List Char)
  | [] => [[]]
  | ',' :: rest => [] :: splitComma rest
  | c :: rest =>
    match splitComma rest with
    | [] => [[c]]
    | seg :: segs => (c :: seg) :: segs

/-- Falsiness of `x.strip()`: the segment is entirely whitespace. -/
def isBlank (cs : List Char) : Bool := cs.all Char.isWhitespace

/-- The segments kept by the comprehension filter `if x.strip()`. -/
def nonblankSegs (values : String) : List (List Char) :=
  (splitComma values.data).filter (fun cs => ! isBlank cs)

/-- Value of a non-empty run of decimal digits; `none` otherwise. -/
def digitsToNat : List Char → Option Nat
  | [] => none
  | cs =>
    if cs.all Char.isDigit then
      some (cs.foldl (fun n c => 10 * n + (c.toNat - ('0').toNat)) 0)
    else none

/-- Embeds `int(x)` on a segment: optional surrounding whitespace, an
optional sign, then a non-empty run of decimal digits; raises
(`none`) on anything else. -/
def parseIntSeg (cs : List Char) : Option Int :=
  match ((cs.dropWhile Char.isWhitespace).reverse.dropWhile
      Char.isWhitespace).reverse with
  | '+' :: ds => (digitsToNat ds).map (fun n => (n : Int))
  | '-' :: ds => (digitsToNat ds).map (fun n => -(n : Int))
  | ds => (digitsToNat ds).map (fun n => (n : Int))

/-- Embeds the comprehension body: parse each kept segment with `int`,
the first failure raising out of the whole comprehension. -/
def mapInts : List (List Char) → Option (List Int)
  | [] => some []
  | s :: rest =>
    match parseIntSeg s, mapInts rest with
    | some n, some ns => some (n :: ns)
    | _, _ => none

/-- The list `nums` of the `builtin_stats` handler. -/
def parsedNums (values : String) : Option (List Int) :=
  mapInts (nonblankSegs values)

/-- Embeds `min(nums) if nums else None`. -/
def pyMin : List Int → Option Int
  | [] => none
  | x :: xs => some (xs.foldl min x)

/-- Embeds `max(nums) if nums else None`. -/
def pyMax : List Int → Option Int
  | [] => none
  | x :: xs => some (xs.foldl max x)

/-- The response dictionary of `GET /builtins/stats`. -/
structure Stats where
  count : Nat
  sum : Int
  min : Option Int
  max : Option Int
deriving DecidableEq, Repr

/-- Embeds the `builtin_stats` handler. -/
def builtin_stats (values : String) : Option Stats :=
  (parsedNums values).map (fun nums =>
    Stats.mk nums.length nums.sum (pyMin nums) (pyMax nums))

/-! Theorems -/

/-- C8: Vec2 addition is component-wise and commutative (componentwise),
and scalar multiplication is component-wise. -/
theorem vec2_add_mul_componentwise (a b : Vec2) (s : Rat) :
    (Vec2.add a b).x = a.x + b.x ∧ (Vec2.add a b).y = a.y + b.y ∧
    (Vec2.add a b).x = (Vec2.add b a).x ∧ (Vec2.add a b).y = (Vec2.add b a).y ∧
    (Vec2.mul a s).x = a.x * s ∧ (Vec2.mul a s).y = a.y * s := by
  refine ⟨rfl, rfl, ?_, ?_, rfl, rfl⟩ <;> simp [Vec2.add, add_comm]

/-- C7: the echo handler sends exactly one reply `"echo: " ++ data` per
received message, in the order the messages were received. -/
theorem ws_echo_replies (msgs : List String) :
    (ws_echo msgs).filterMap sentOf = msgs.map (fun data => "echo: " ++ data) := by
  simp only [ws_echo, List.filterMap_cons, sentOf]
  induction msgs with
  | nil => rfl
  | cons d rest ih =>
      simp only [wsLoop, List.filterMap_cons, sentOf, List.map_cons]
      exact congrArg _ ih

/-- C4: the sanitizing substitution preserves the length of the input,
keeps every character of the allowed class unchanged at its position,
and replaces every other character by a dash. -/
theorem sub_sanitize_spec (isw : Char → Bool) (s : String) :
    (subSanitize isw s).length = s.length ∧
    ∀ i (h1 : i < (subSanitize isw s).data.length) (h2 : i < s.data.length),
      (allowedChar isw (s.data.get ⟨i, h2⟩) = true →
        (subSanitize isw s).data.get ⟨i, h1⟩ = s.data.get ⟨i, h2⟩) ∧
      (allowedChar isw (s.data.get ⟨i, h2⟩) = false →
        (subSanitize isw s).data.get ⟨i, h1⟩ = '-') := by
  constructor
  · show (sanitizeChars isw s.data).length = s.data.length
    simp [sanitizeChars]
  · intro i h1 h2
    have hget : (subSanitize isw s).data.get ⟨i, h1⟩ =
        (if allowedChar isw (s.data.get ⟨i, h2⟩) then s.data.get ⟨i, h2⟩ else '-') := by
      show (sanitizeChars isw s.data).get ⟨i, h1⟩ = _
      simp [sanitizeChars]
    constructor
    · intro hall; rw [hget, if_pos hall]
    · intro hall
      rw [hget, if_neg]
      rw [hall]
      simp

/-- C4 witness: the sanitizer evaluated at a concrete string. -/
theorem sub_sanitize_spec_witness :
    (subSanitize asciiWord "user name!").length = ("user name!" : String).length :=
  (sub_sanitize_spec asciiWord "user name!").1

/-- C6 counterexample: an existing file with empty content also makes
`safe_open_read` return the empty string, although reading it does not
raise `FileNotFoundError`; so "returns the empty string exactly when
reading raises FileNotFoundError" fails in the only-if direction. -/
theorem safe_open_read_counterexample :
    safe_open_read fsEmptyFile "f.txt" = Except.ok "" ∧
    fsEmptyFile "f.txt" ≠ Except.error PyErr.fileNotFound :=
  ⟨rfl, fun h => Except.noConfusion h⟩

/-- C6 (amended): `safe_open_read` returns the full content whenever the
read succeeds, returns `""` whenever the read raises
`FileNotFoundError`, and never lets `FileNotFoundError` escape. -/
theorem safe_open_read_spec (fs : String → Except PyErr String) (path : String) :
    (∀ s, fs path = Except.ok s → safe_open_read fs path = Except.ok s) ∧
    (fs path = Except.error PyErr.fileNotFound → safe_open_read fs path = Except.ok "") ∧
    safe_open_read fs path ≠ Except.error PyErr.fileNotFound := by
  refine ⟨?_, ?_, ?_⟩
  · intro s hs; simp [safe_open_read, hs]
  · intro hs; simp [safe_open_read, hs]
  · cases hfs : fs path with
    | ok s => simp [safe_open_read, hfs]
    | error e => cases e <;> simp [safe_open_read, hfs]

/-- C6 witness: no `FileNotFoundError` escapes on a concrete filesystem. -/
theorem safe_open_read_spec_witness :
    safe_open_read fsEmptyFile "g.txt" ≠ Except.error PyErr.fileNotFound :=
  (safe_open_read_spec fsEmptyFile "g.txt").2.2

/-- C7 witness: the echo trace of a concrete two-message session. -/
theorem ws_echo_replies_witness :
    (ws_echo ["hi", "there"]).filterMap sentOf = ["echo: hi", "echo: there"] :=
  ws_echo_replies ["hi", "there"]

/-- Folding `max` only grows the accumulator. -/
theorem foldl_max_init (l : List Int) (a : Int) : a ≤ l.foldl max a := by
  induction l generalizing a with
  | nil => exact le_refl a
  | cons b l ih => exact le_trans (le_max_left a b) (ih (max a b))

/-- Every member of the list is bounded by the `max` fold. -/
theorem foldl_max_of_mem (l : List Int) (a x : Int) (hx : x ∈ l) :
    x ≤ l.foldl max a := by
  induction l generalizing a with
  | nil => cases hx
  | cons b l ih =>
    rcases List.mem_cons.mp hx with h | h
    · subst h
      exact le_trans (le_max_right a x) (foldl_max_init l (max a x))
    · exact ih (max a b) h

/-- The `max` fold is the accumulator or a member of the list. -/
theorem foldl_max_mem_or (l : List Int) (a : Int) :
    l.foldl max a = a ∨ l.foldl max a ∈ l := by
  induction l generalizing a with
  | nil => exact Or.inl rfl
  | cons b l ih =>
    rcases ih (max a b) with h | h
    · rcases max_cases a b with ⟨hm, _⟩ | ⟨hm, _⟩
      · left; rw [List.foldl_cons, h, hm]
      · right; rw [List.foldl_cons, h, hm]; exact List.mem_cons_self b l
    · right; exact List.mem_cons_of_mem b h

/-- Every key of the store is bounded by `maxKey`. -/
theorem key_le_maxKey (db : List (Int × Item)) (k : Int)
    (h : k ∈ db.map Prod.fst) : k ≤ maxKey db := by
  cases db with
  | nil => simp at h
  | cons p rest =>
    rw [List.map_cons] at h
    rcases List.mem_cons.mp h with h1 | h1
    · rw [h1, maxKey]; exact foldl_max_init _ _
    · rw [maxKey]; exact foldl_max_of_mem _ _ _ h1

/-- Lookup misses when no key of the store equals the query. -/
theorem dbLookup_eq_none (db : List (Int × Item)) (i : Int)
    (h : ∀ k ∈ db.map Prod.fst, k ≠ i) : dbLookup db i = none := by
  induction db with
  | nil => rfl
  | cons p rest ih =>
    obtain ⟨k0, v0⟩ := p
    have h0 : ¬ (i = k0) := fun hh => h k0 (by simp) hh.symm
    show (if i = k0 then some v0 else dbLookup rest i) = none
    rw [if_neg h0]
    exact ih (fun k hk => h k (by simp [hk]))

/-- Lookup after dict assignment. -/
theorem dbLookup_dbInsert (db : List (Int × Item)) (k i : Int) (v : Item) :
    dbLookup (dbInsert db k v) i = if i = k then some v else dbLookup db i := by
  induction db with
  | nil => simp [dbInsert, dbLookup]
  | cons p rest ih =>
    obtain ⟨k0, v0⟩ := p
    by_cases hk : k = k0
    · subst hk
      simp only [dbInsert, if_pos rfl]
      by_cases hi : i = k <;> simp [dbLookup, hi]
    · simp only [dbInsert, if_neg hk, dbLookup, ih]
      by_cases hi : i = k0 <;> by_cases hik : i = k <;> simp_all

/-- Assigning a fresh key appends the binding at the end. -/
theorem dbInsert_eq_append (db : List (Int × Item)) (k : Int) (v : Item)
    (h : dbLookup db k = none) : dbInsert db k v = db ++ [(k, v)] := by
  induction db with
  | nil => rfl
  | cons p rest ih =>
    obtain ⟨k0, v0⟩ := p
    by_cases hk : k = k0
    · subst hk; simp [dbLookup] at h
    · simp only [dbLookup, if_neg hk] at h
      simp only [dbInsert, if_neg hk, List.cons_append]
      exact congrArg _ (ih h)

/-- Reading leaves the store unchanged. -/
theorem read_item_db (db : List (Int × Item)) (i : Int) :
    (read_item db i).2 = db := by
  rw [read_item]
  cases get_item_or_404 db i <;> rfl

/-- C2: the `GET /item/{item_id}` handler raises 404 exactly when the id
is not a key of the store; when the id is present it returns the field
dictionary of the stored item; the store is left unchanged. -/
theorem read_item_spec (db : List (Int × Item)) (item_id : Int) :
    ((read_item db item_id).1 = Except.error 404 ↔ dbLookup db item_id = none) ∧
    (∀ item, dbLookup db item_id = some item →
      (read_item db item_id).1 = Except.ok (ItemDict.mk item.id item.name item.price)) ∧
    (read_item db item_id).2 = db := by
  refine ⟨?_, ?_, read_item_db db item_id⟩
  · cases h : dbLookup db item_id <;> simp [read_item, get_item_or_404, h]
  · intro item h
    simp [read_item, get_item_or_404, h, asdict]

/-- C2 witness: the 404 criterion evaluated at a concrete store and id. -/
theorem read_item_spec_witness :
    (read_item IN_MEMORY_DB 2).1 = Except.error 404 ↔
      dbLookup IN_MEMORY_DB 2 = none :=
  (read_item_spec IN_MEMORY_DB 2).1

/-- C9: `create_item` appends exactly one new binding at key
`maxKey + 1` (1 on the empty store), a key strictly above every
existing key, leaving every existing binding unchanged, and returns the
field dictionary of the new item. -/
theorem create_item_spec (db : List (Int × Item)) (name : String) (price : Rat) :
    (create_item db name price).2 =
      db ++ [(maxKey db + 1, Item.mk (maxKey db + 1) name price)] ∧
    (create_item db name price).1 = asdict (Item.mk (maxKey db + 1) name price) ∧
    (∀ k, k ∈ db.map Prod.fst → k < maxKey db + 1) ∧
    (db = [] → maxKey db + 1 = 1) := by
  have hkeys : ∀ k, k ∈ db.map Prod.fst → k < maxKey db + 1 := by
    intro k hk
    exact lt_of_le_of_lt (key_le_maxKey db k hk) (lt_add_one _)
  have hnone : dbLookup db (maxKey db + 1) = none :=
    dbLookup_eq_none db _ (fun k hk => ne_of_lt (hkeys k hk))
  refine ⟨?_, rfl, hkeys, ?_⟩
  · show dbInsert db (maxKey db + 1) (Item.mk (maxKey db + 1) name price) = _
    exact dbInsert_eq_append db _ _ hnone
  · intro h; subst h; rfl

/-- C9 witness: creating an item on the initial store appends key 2. -/
theorem create_item_spec_witness :
    (create_item IN_MEMORY_DB "pear" 2).2 =
      IN_MEMORY_DB ++ [(maxKey IN_MEMORY_DB + 1,
        Item.mk (maxKey IN_MEMORY_DB + 1) "pear" 2)] :=
  (create_item_spec IN_MEMORY_DB "pear" 2).1

/-- One call preserves the key/id invariant. -/
theorem keyedById_applyOp (db : List (Int × Item)) (op : Op)
    (h : keyedById db) : keyedById (applyOp db op) := by
  cases op with
  | read i =>
      intro k item hkv
      rw [applyOp, read_item_db] at hkv
      exact h k item hkv
  | create n p =>
      intro k item hkv
      simp only [applyOp, create_item] at hkv
      rw [dbLookup_dbInsert] at hkv
      by_cases hk : k = maxKey db + 1
      · rw [if_pos hk] at hkv
        cases hkv
        exact hk.symm
      · rw [if_neg hk] at hkv
        exact h k item hkv

/-- A sequence of calls preserves the key/id invariant. -/
theorem keyedById_foldl (ops : List Op) :
    ∀ db, keyedById db → keyedById (ops.foldl applyOp db) := by
  induction ops with
  | nil => intro db h; exact h
  | cons op rest ih =>
      intro db h
      exact ih _ (keyedById_applyOp db op h)

/-- The initial store satisfies the key/id invariant. -/
theorem keyedById_init : keyedById IN_MEMORY_DB := by
  intro k item h
  by_cases hk : k = 1
  · subst hk
    have : Item.mk 1 "apple" (0.5 : Rat) = item := by
      simpa [IN_MEMORY_DB, dbLookup] using h
    rw [← this]
  · simp [IN_MEMORY_DB, dbLookup, hk] at h

/-- C3: in every store reachable from the initial one by `create_item`
and `read_item` calls, each stored item's `id` equals its key. -/
theorem in_memory_db_keyed (ops : List Op) : keyedById (runOps ops) :=
  keyedById_foldl ops IN_MEMORY_DB keyedById_init

/-- C3 witness: the invariant after one concrete create call. -/
theorem in_memory_db_keyed_witness :
    keyedById (runOps [Op.create "pear" 2]) :=
  in_memory_db_keyed [Op.create "pear" 2]

/-- The retry loop makes at most `rem` invocations. -/
theorem retryLoop_count_le {E A : Type} (f : Nat → Except E A) :
    ∀ (rem attempt : Nat) (last : Option E),
      (retryLoop f rem attempt last).2 ≤ rem := by
  intro rem
  induction rem with
  | zero => intro attempt last; cases last <;> simp [retryLoop]
  | succ n ih =>
      intro attempt last
      cases hf : f attempt with
      | ok a => simp [retryLoop, hf]
      | error e =>
          have := ih (attempt + 1) (some e)
          simp only [retryLoop, hf]
          omega

/-- If some invocation in range succeeds and all earlier in-range
invocations raise, the loop returns that first success. -/
theorem retryLoop_first_ok {E A : Type} (f : Nat → Except E A) :
    ∀ (rem attempt : Nat) (last : Option E) (k : Nat) (a : A),
      attempt ≤ k → k < attempt + rem → f k = Except.ok a →
      (∀ j, attempt ≤ j → j < k → ∃ e, f j = Except.error e) →
      (retryLoop f rem attempt last).1 = RetryResult.ok a := by
  intro rem
  induction rem with
  | zero =>
      intro attempt last k a h1 h2 _ _
      exact absurd h2 (by omega)
  | succ n ih =>
      intro attempt last k a h1 h2 hk hprev
      by_cases he : attempt = k
      · subst he
        simp [retryLoop, hk]
      · have hlt : attempt < k := lt_of_le_of_ne h1 he
        obtain ⟨e, hfe⟩ := hprev attempt le_rfl hlt
        simp only [retryLoop, hfe]
        exact ih (attempt + 1) (some e) k a (by omega) (by omega) hk
          (fun j hj1 hj2 => hprev j (by omega) hj2)

/-- If every invocation in range raises, the loop re-raises the
exception of the last invocation. -/
theorem retryLoop_all_error {E A : Type} (f : Nat → Except E A) :
    ∀ (rem attempt : Nat) (last : Option E),
      0 < rem →
      (∀ j, attempt ≤ j → j < attempt + rem → ∃ e, f j = Except.error e) →
      ∃ e, f (attempt + rem - 1) = Except.error e ∧
        (retryLoop f rem attempt last).1 = RetryResult.raised e := by
  intro rem
  induction rem with
  | zero =>
      intro attempt last h
      exact absurd h (by omega)
  | succ n ih =>
      intro attempt last _ hall
      obtain ⟨e, he⟩ := hall attempt le_rfl (by omega)
      cases n with
      | zero =>
          refine ⟨e, ?_, ?_⟩
          · have h1 : attempt + 1 - 1 = attempt := by omega
            rw [h1]; exact he
          · simp [retryLoop, he]
      | succ m =>
          obtain ⟨e2, he2, hrun⟩ := ih (attempt + 1) (some e) (by omega)
            (fun j hj1 hj2 => hall j (by omega) (by omega))
          refine ⟨e2, ?_, ?_⟩
          · have h1 : attempt + (m + 1 + 1) - 1 = attempt + 1 + (m + 1) - 1 := by
              omega
            rw [h1]; exact he2
          · simp only [retryLoop, he]
            exact hrun

/-- C1 counterexample: with `times = 0` the wrapper makes no invocation
and executes `raise None` (a `TypeError`); it neither returns a value
nor re-raises any attempt's exception, although every one of the zero
invocations (vacuously) raised. -/
theorem retry_counterexample :
    (retry 0 0 retryCexF).1 = RetryResult.typeErrorNone ∧
    (retry 0 0 retryCexF).1 ≠ RetryResult.raised 7 ∧
    (retry 0 0 retryCexF).1 ≠ RetryResult.ok 7 :=
  ⟨rfl, by decide, by decide⟩

/-- C1 (amended to `times ≥ 1`): the wrapper makes at most `times`
invocations, returns the first successful result unchanged, and if
every invocation raises it re-raises the exception of the last
(`times`-th) attempt. -/
theorem retry_spec {E A : Type} (times : Int) (delay : Rat)
    (f : Nat → Except E A) (h : 1 ≤ times) :
    ((retry times delay f).2 : Int) ≤ times ∧
    (∀ (k : Nat) (a : A), 1 ≤ k → (k : Int) ≤ times → f k = Except.ok a →
      (∀ j, 1 ≤ j → j < k → ∃ e, f j = Except.error e) →
      (retry times delay f).1 = RetryResult.ok a) ∧
    ((∀ j : Nat, 1 ≤ j → (j : Int) ≤ times → ∃ e, f j = Except.error e) →
      ∃ e, f times.toNat = Except.error e ∧
        (retry times delay f).1 = RetryResult.raised e) := by
  simp only [retry]
  refine ⟨?_, ?_, ?_⟩
  · have := retryLoop_count_le f times.toNat 1 none
    omega
  · intro k a hk1 hk2 hfk hprev
    exact retryLoop_first_ok f times.toNat 1 none k a hk1 (by omega) hfk
      (fun j hj1 hj2 => hprev j hj1 hj2)
  · intro hall
    obtain ⟨e, he, hrun⟩ := retryLoop_all_error f times.toNat 1 none (by omega)
      (fun j hj1 hj2 => hall j hj1 (by omega))
    refine ⟨e, ?_, hrun⟩
    have h1 : 1 + times.toNat - 1 = times.toNat := by omega
    rw [h1] at he
    exact he

/-- C5: sorting with `reverse=True` yields a non-increasing sequence
that is a permutation of the input. -/
theorem sorted_desc_spec (data : List Int) :
    (sortedDesc data).Perm data ∧
    ∀ (i : Nat) (h : i + 1 < (sortedDesc data).length),
      (sortedDesc data).get ⟨i + 1, h⟩ ≤
        (sortedDesc data).get ⟨i, Nat.lt_of_succ_lt h⟩ := by
  refine ⟨List.perm_insertionSort _ data, ?_⟩
  intro i h
  have hs : List.Sorted (· ≥ ·) (sortedDesc data) :=
    List.sorted_insertionSort _ data
  exact List.pairwise_iff_get.mp hs ⟨i, Nat.lt_of_succ_lt h⟩ ⟨i + 1, h⟩
    (Fin.mk_lt_mk.mpr (Nat.lt_succ_self i))

/-- C5 witness: the sorted output of the demo data is a permutation of
the input. -/
theorem sorted_desc_spec_witness :
    (sortedDesc [3, 1, 4, 1, 5]).Perm [3, 1, 4, 1, 5] :=
  (sorted_desc_spec [3, 1, 4, 1, 5]).1

/-- Folding `min` only shrinks the accumulator. -/
theorem foldl_min_init (l : List Int) (a : Int) : l.foldl min a ≤ a := by
  induction l generalizing a with
  | nil => exact le_refl a
  | cons b l ih => exact le_trans (ih (min a b)) (min_le_left a b)

/-- The `min` fold bounds every member of the list. -/
theorem foldl_min_of_mem (l : List Int) (a x : Int) (hx : x ∈ l) :
    l.foldl min a ≤ x := by
  induction l generalizing a with
  | nil => cases hx
  | cons b l ih =>
    rcases List.mem_cons.mp hx with h | h
    · subst h
      exact le_trans (foldl_min_init l (min a x)) (min_le_right a x)
    · exact ih (min a b) h

/-- The `min` fold is the accumulator or a member of the list. -/
theorem foldl_min_mem_or (l : List Int) (a : Int) :
    l.foldl min a = a ∨ l.foldl min a ∈ l := by
  induction l generalizing a with
  | nil => exact Or.inl rfl
  | cons b l ih =>
    rcases ih (min a b) with h | h
    · rcases min_cases a b with ⟨hm, _⟩ | ⟨hm, _⟩
      · left; rw [List.foldl_cons, h, hm]
      · right; rw [List.foldl_cons, h, hm]; exact List.mem_cons_self b l
    · right; exact List.mem_cons_of_mem b h

/-- `min(nums)` is a member of `nums` and a lower bound of it. -/
theorem pyMin_spec (nums : List Int) (m : Int) (h : pyMin nums = some m) :
    m ∈ nums ∧ ∀ x ∈ nums, m ≤ x := by
  cases nums with
  | nil => cases h
  | cons x xs =>
    have hm : m = xs.foldl min x := by
      have := h
      simp only [pyMin, Option.some.injEq] at this
      exact this.symm
    constructor
    · rcases foldl_min_mem_or xs x with h1 | h1
      · rw [hm, h1]; exact List.mem_cons_self x xs
      · rw [hm]; exact List.mem_cons_of_mem x h1
    · intro y hy
      rcases List.mem_cons.mp hy with h1 | h1
      · subst h1; rw [hm]; exact foldl_min_init xs y
      · rw [hm]; exact foldl_min_of_mem xs x y h1

/-- `max(nums)` is a member of `nums` and an upper bound of it. -/
theorem pyMax_spec (nums : List Int) (m : Int) (h : pyMax nums = some m) :
    m ∈ nums ∧ ∀ x ∈ nums, x ≤ m := by
  cases nums with
  | nil => cases h
  | cons x xs =>
    have hm : m = xs.foldl max x := by
      have := h
      simp only [pyMax, Option.some.injEq] at this
      exact this.symm
    constructor
    · rcases foldl_max_mem_or xs x with h1 | h1
      · rw [hm, h1]; exact List.mem_cons_self x xs
      · rw [hm]; exact List.mem_cons_of_mem x h1
    · intro y hy
      rcases List.mem_cons.mp hy with h1 | h1
      · subst h1; rw [hm]; exact foldl_max_init xs y
      · rw [hm]; exact foldl_max_of_mem xs x y h1

/-- A successful comprehension yields one int per kept segment. -/
theorem mapInts_length (ss : List (List Char)) (ns : List Int)
    (h : mapInts ss = some ns) : ns.length = ss.length := by
  induction ss generalizing ns with
  | nil =>
      simp only [mapInts, Option.some.injEq] at h
      rw [← h]; rfl
  | cons s rest ih =>
      cases hp : parseIntSeg s with
      | none => simp [mapInts, hp] at h
      | some n =>
          cases hr : mapInts rest with
          | none => simp [mapInts, hp, hr] at h
          | some ms =>
              simp only [mapInts, hp, hr, Option.some.injEq] at h
              rw [← h]
              simp [ih ms hr]

/-- C10: on inputs whose non-blank comma segments are all decimal
integer literals, the stats endpoint reports the number of kept
segments, their sum, and their minimum and maximum (`None` for both
when no segment is kept, with count 0 and sum 0, instead of raising). -/
theorem builtin_stats_spec (values : String) (nums : List Int)
    (h : parsedNums values = some nums) :
    builtin_stats values =
      some (Stats.mk nums.length nums.sum (pyMin nums) (pyMax nums)) ∧
    nums.length = (nonblankSegs values).length ∧
    (nums = [] → builtin_stats values = some (Stats.mk 0 0 none none)) ∧
    (∀ m, pyMin nums = some m → m ∈ nums ∧ ∀ x ∈ nums, m ≤ x) ∧
    (∀ m, pyMax nums = some m → m ∈ nums ∧ ∀ x ∈ nums, x ≤ m) ∧
    (nums ≠ [] → (pyMin nums).isSome ∧ (pyMax nums).isSome) := by
  refine ⟨?_, mapInts_length _ _ h, ?_, fun m hm => pyMin_spec nums m hm,
    fun m hm => pyMax_spec nums m hm, ?_⟩
  · simp [builtin_stats, h]
  · intro hnil
    subst hnil
    simp [builtin_stats, h, pyMin, pyMax]
  · intro hne
    cases nums with
    | nil => exact absurd rfl hne
    | cons x xs => exact ⟨rfl, rfl⟩

/-- C10 witness: the stats contract evaluated on the input `"1, 2"`. -/
theorem builtin_stats_spec_witness :
    parsedNums "1, 2" = some [1, 2] ∧
    (builtin_stats "1, 2" =
      some (Stats.mk (([1, 2] : List Int)).length ([1, 2] : List Int).sum
        (pyMin [1, 2]) (pyMax [1, 2])) ∧
    ([1, 2] : List Int).length = (nonblankSegs "1, 2").length ∧
    (([1, 2] : List Int) = [] → builtin_stats "1, 2" = some (Stats.mk 0 0 none none)) ∧
    (∀ m, pyMin [1, 2] = some m → m ∈ ([1, 2] : List Int) ∧ ∀ x ∈ ([1, 2] : List Int), m ≤ x) ∧
    (∀ m, pyMax [1, 2] = some m → m ∈ ([1, 2] : List Int) ∧ ∀ x ∈ ([1, 2] : List Int), x ≤ m) ∧
    (([1, 2] : List Int) ≠ [] → (pyMin [1, 2]).isSome ∧ (pyMax [1, 2]).isSome)) :=
  ⟨by decide, builtin_stats_spec "1, 2" [1, 2] (by decide)⟩

/-- C1 witness: the amended retry contract at `times = 2`, `delay = 0`
and a function failing once then succeeding. -/
theorem retry_spec_witness :
    (1 : Int) ≤ 2 ∧
    (((retry 2 0 retryWitF).2 : Int) ≤ 2 ∧
      (∀ (k : Nat) (a : Nat), 1 ≤ k → (k : Int) ≤ 2 →
        retryWitF k = Except.ok a →
        (∀ j, 1 ≤ j → j < k → ∃ e, retryWitF j = Except.error e) →
        (retry 2 0 retryWitF).1 = RetryResult.ok a) ∧
      ((∀ j : Nat, 1 ≤ j → (j : Int) ≤ 2 → ∃ e, retryWitF j = Except.error e) →
        ∃ e, retryWitF (2 : Int).toNat = Except.error e ∧
          (retry 2 0 retryWitF).1 = RetryResult.raised e)) :=
  ⟨by decide, retry_spec 2 0 retryWitF (by decide)⟩

end FastapiVercel
